import Mathlib

/-!
Verification of the motor_sim physics integrator and observers.

The C++ sources are shallowly embedded: `Scalar` (a `double` in the source)
is modelled as `ℝ`, stateful code as explicit state passing, and the fatal
`exit(-1)` path of `step` as `Option.none`.  Definitions follow
`src/simulator/simulator.cpp` and `src/simulator/gui.cpp`; components of the
repository whose sources are not available (the rolling-buffer helpers, the
Clarke transform implementation, the sine-series generator and the cogging
interpolation) are modelled from the specification and marked as such.
-/

namespace MotorSim

noncomputable section

open Real

/-- Gate literal from simulator.cpp / gui.cpp: constexpr int LOW = 0. -/
def LOW : ℕ := 0

/-- Gate literal from simulator.cpp / gui.cpp: constexpr int HIGH = 1. -/
def HIGH : ℕ := 1

/-- Gate literal from simulator.cpp / gui.cpp: constexpr int OFF = 2. -/
def OFF : ℕ := 2

/-- kPI from util/math_constants.h. -/
def kPI : ℝ := Real.pi

/-- Truncation toward zero, the rounding used by C++ std::fmod. -/
def rtrunc (x : ℝ) : ℤ := if 0 ≤ x then ⌊x⌋ else ⌈x⌉

/-- C++ std::fmod: x - trunc(x/y) * y.  The result has the sign of x. -/
def fmod (x y : ℝ) : ℝ := x - (rtrunc (x / y) : ℝ) * y

/-- Modelled from the spec: generate_odd_sine_series (util/sine_series.h is
not under src/).  Spec section 4.1 and testable property 3:
odd_sine_series(n, theta)[k] = sin((2k+1) * theta). -/
def generate_odd_sine_series (θ : ℝ) (k : ℕ) : ℝ := Real.sin ((2 * k + 1) * θ)

/-- get_back_emf from simulator.cpp: dot product of the odd sine series with
the five normalized bEMF coefficients. -/
def get_back_emf (coeffs : Fin 5 → ℝ) (angle_electrical : ℝ) : ℝ :=
  ∑ k : Fin 5, generate_odd_sine_series angle_electrical k.val * coeffs k

/-- SimParams as used by step in simulator.cpp.  The cogging_torque_map field
is modelled from the spec's MotorParams (sim_params.h is not under src/); it
is not read by step. -/
structure SimParams where
  dt : ℝ
  bus_voltage : ℝ
  i_diode_active : ℝ
  v_diode_active : ℝ
  phase_resistance : ℝ
  phase_inductance : ℝ
  inertia_rotor : ℝ
  num_pole_pairs : ℕ
  normalized_bEmf_coeffs : Fin 5 → ℝ
  step_multiplier : ℕ
  cogging_torque_map : List ℝ

/-- SimState as used by step in simulator.cpp.  The load_torque field is
modelled from the spec's SimState (sim_state.h is not under src/); it is not
read by step. -/
structure SimState where
  time : ℝ
  switches : Fin 3 → ℕ
  i_coils : Fin 3 → ℝ
  v_poles : Fin 3 → ℝ
  v_neutral : ℝ
  v_phases : Fin 3 → ℝ
  bEmfs : Fin 3 → ℝ
  torque : ℝ
  angular_accel_rotor : ℝ
  angular_vel_rotor : ℝ
  angle_rotor : ℝ
  angle_electrical : ℝ
  load_torque : ℝ

/-- The pole-voltage switch statement of step (simulator.cpp lines 33-57).
The OFF case first picks a rail from the sign of the coil current and then
subtracts the diode drop whenever the current magnitude exceeds the
i_diode_active threshold; an unhandled switch value is the fatal
printf/exit(-1) path, modelled as none. -/
def pole_voltage (p : SimParams) (sw : ℕ) (i : ℝ) : Option ℝ :=
  if sw = OFF then
    some ((if i > 0 then 0 else p.bus_voltage) -
          (if |i| > p.i_diode_active then p.v_diode_active else 0))
  else if sw = HIGH then some p.bus_voltage
  else if sw = LOW then some 0
  else none

/-- The three normalized back-EMFs of one step (simulator.cpp lines 59-66),
evaluated at the pre-step electrical angle with offsets 0, +2pi/3, -2pi/3. -/
def step_normed_bEmfs (p : SimParams) (s : SimState) : Fin 3 → ℝ :=
  ![get_back_emf p.normalized_bEmf_coeffs s.angle_electrical,
    get_back_emf p.normalized_bEmf_coeffs (s.angle_electrical + 2 * kPI / 3),
    get_back_emf p.normalized_bEmf_coeffs (s.angle_electrical - 2 * kPI / 3)]

/-- bEmfs = normalized_bEmfs * angular_vel_rotor (simulator.cpp line 68). -/
def step_bEmfs (p : SimParams) (s : SimState) : Fin 3 → ℝ :=
  fun n => step_normed_bEmfs p s n * s.angular_vel_rotor

/-- v_neutral = (sum of v_poles - sum of bEmfs) / 3 (simulator.cpp line 72). -/
def step_v_neutral (p : SimParams) (s : SimState) (vp : Fin 3 → ℝ) : ℝ :=
  ((∑ n : Fin 3, vp n) - ∑ n : Fin 3, step_bEmfs p s n) / 3

/-- v_phases(n) = v_poles(n) - v_neutral (simulator.cpp lines 74-76). -/
def step_v_phases (p : SimParams) (s : SimState) (vp : Fin 3 → ℝ) : Fin 3 → ℝ :=
  fun n => vp n - step_v_neutral p s vp

/-- di_dt(n) = (v_phases(n) - bEmfs(n) - i_coils(n)*R) / L
(simulator.cpp lines 78-83). -/
def step_di_dt (p : SimParams) (s : SimState) (vp : Fin 3 → ℝ) : Fin 3 → ℝ :=
  fun n => (step_v_phases p s vp n - step_bEmfs p s n -
            s.i_coils n * p.phase_resistance) / p.phase_inductance

/-- i_coils += di_dt * dt (simulator.cpp line 85). -/
def step_i_coils (p : SimParams) (s : SimState) (vp : Fin 3 → ℝ) : Fin 3 → ℝ :=
  fun n => s.i_coils n + step_di_dt p s vp n * p.dt

/-- torque = i_coils.dot(normalized_bEmfs) with the updated currents
(simulator.cpp line 87). -/
def step_torque (p : SimParams) (s : SimState) (vp : Fin 3 → ℝ) : ℝ :=
  ∑ n : Fin 3, step_i_coils p s vp n * step_normed_bEmfs p s n

/-- angular_accel_rotor = torque / inertia_rotor (simulator.cpp line 89). -/
def step_angular_accel (p : SimParams) (s : SimState) (vp : Fin 3 → ℝ) : ℝ :=
  step_torque p s vp / p.inertia_rotor

/-- angular_vel_rotor += angular_accel_rotor * dt (simulator.cpp line 90). -/
def step_angular_vel (p : SimParams) (s : SimState) (vp : Fin 3 → ℝ) : ℝ :=
  s.angular_vel_rotor + step_angular_accel p s vp * p.dt

/-- angle_rotor = fmod(angle_rotor + angular_vel_rotor * dt, 2*kPI)
(simulator.cpp lines 91-92). -/
def step_angle_rotor (p : SimParams) (s : SimState) (vp : Fin 3 → ℝ) : ℝ :=
  fmod (s.angle_rotor + step_angular_vel p s vp * p.dt) (2 * kPI)

/-- angle_electrical = fmod(angle_rotor * num_pole_pairs, 2*kPI)
(simulator.cpp lines 94-95). -/
def step_angle_electrical (p : SimParams) (s : SimState) (vp : Fin 3 → ℝ) : ℝ :=
  fmod (step_angle_rotor p s vp * (p.num_pole_pairs : ℝ)) (2 * kPI)

/-- The post-step state given the three resolved pole voltages. -/
def mk_step_state (p : SimParams) (s : SimState) (vp : Fin 3 → ℝ) : SimState :=
  { time := s.time + p.dt
    switches := s.switches
    i_coils := step_i_coils p s vp
    v_poles := vp
    v_neutral := step_v_neutral p s vp
    v_phases := step_v_phases p s vp
    bEmfs := step_bEmfs p s
    torque := step_torque p s vp
    angular_accel_rotor := step_angular_accel p s vp
    angular_vel_rotor := step_angular_vel p s vp
    angle_rotor := step_angle_rotor p s vp
    angle_electrical := step_angle_electrical p s vp
    load_torque := s.load_torque }

/-- One integrator step (simulator.cpp lines 29-96).  The fatal exit on an
unhandled switch value is modelled as none. -/
def step (p : SimParams) (s : SimState) : Option SimState :=
  match pole_voltage p (s.switches 0) (s.i_coils 0),
        pole_voltage p (s.switches 1) (s.i_coils 1),
        pole_voltage p (s.switches 2) (s.i_coils 2) with
  | some v0, some v1, some v2 => some (mk_step_state p s ![v0, v1, v2])
  | _, _, _ => none

/-! ### Basic lemmas about fmod and the step function -/

theorem fmod_of_nonneg (x y : ℝ) (hx : 0 ≤ x) (hy : 0 < y) :
    0 ≤ fmod x y ∧ fmod x y < y := by
  have hq : 0 ≤ x / y := div_nonneg hx hy.le
  have : fmod x y = y * Int.fract (x / y) := by
    rw [fmod, rtrunc, if_pos hq, Int.fract]
    field_simp
    ring
  rw [this]
  constructor
  · exact mul_nonneg hy.le (Int.fract_nonneg _)
  · calc y * Int.fract (x / y) < y * 1 :=
          (mul_lt_mul_left hy).mpr (Int.fract_lt_one _)
      _ = y := mul_one y

theorem fmod_of_neg (x y : ℝ) (hx : x < 0) (hy : 0 < y) :
    -y < fmod x y ∧ fmod x y ≤ 0 := by
  have hq : x / y < 0 := div_neg_of_neg_of_pos hx hy
  have hfm : fmod x y = y * (x / y - (⌈x / y⌉ : ℝ)) := by
    rw [fmod, rtrunc, if_neg (not_le.mpr hq)]
    field_simp
    ring
  rw [hfm]
  constructor
  · have h1 : (⌈x / y⌉ : ℝ) < x / y + 1 := Int.ceil_lt_add_one _
    have h2 : (-1 : ℝ) < x / y - (⌈x / y⌉ : ℝ) := by linarith
    calc -y = y * (-1) := by ring
      _ < y * (x / y - (⌈x / y⌉ : ℝ)) := (mul_lt_mul_left hy).mpr h2
  · have h1 : x / y ≤ (⌈x / y⌉ : ℝ) := Int.le_ceil _
    have h2 : x / y - (⌈x / y⌉ : ℝ) ≤ 0 := by linarith
    exact mul_nonpos_of_nonneg_of_nonpos hy.le h2

theorem fmod_bounds (x y : ℝ) (hy : 0 < y) : -y < fmod x y ∧ fmod x y < y := by
  rcases le_or_lt 0 x with hx | hx
  · obtain ⟨h1, h2⟩ := fmod_of_nonneg x y hx hy
    exact ⟨by linarith, h2⟩
  · obtain ⟨h1, h2⟩ := fmod_of_neg x y hx hy
    exact ⟨h1, by linarith⟩

theorem fmod_neg_one_two_pi : fmod (-1) (2 * kPI) = -1 := by
  have hpi : (3 : ℝ) < Real.pi := Real.pi_gt_three
  have h2pi : (1 : ℝ) < 2 * kPI := by rw [kPI]; linarith
  have hq : (-1 : ℝ) / (2 * kPI) < 0 :=
    div_neg_of_neg_of_pos (by norm_num) (by linarith)
  have hceil : ⌈(-1 : ℝ) / (2 * kPI)⌉ = 0 := by
    rw [Int.ceil_eq_zero_iff]
    constructor
    · show (-1 : ℝ) < -1 / (2 * kPI)
      rw [neg_div]
      have h1 : 1 / (2 * kPI) < 1 := by
        rw [div_lt_one (by linarith)]
        exact h2pi
      linarith
    · exact hq.le
  rw [fmod, rtrunc, if_neg (not_le.mpr hq), hceil]
  norm_num

theorem get_back_emf_zero_coeffs (θ : ℝ) : get_back_emf (fun _ => 0) θ = 0 := by
  simp [get_back_emf]

/-- Inversion for pole_voltage: it aborts exactly on switch values outside
the LOW/HIGH/OFF set. -/
theorem pole_voltage_eq_none_iff (p : SimParams) (sw : ℕ) (i : ℝ) :
    pole_voltage p sw i = none ↔ ¬(sw = LOW ∨ sw = HIGH ∨ sw = OFF) := by
  rw [pole_voltage]
  rcases eq_or_ne sw OFF with h | h
  · simp [h]
  · rcases eq_or_ne sw HIGH with h1 | h1
    · simp [h, h1, LOW, HIGH, OFF]
    · rcases eq_or_ne sw LOW with h2 | h2
      · simp [h, h1, h2, LOW, HIGH, OFF]
      · simp [h, h1, h2]

theorem pole_voltage_isSome_of_valid (p : SimParams) (sw : ℕ) (i : ℝ)
    (h : sw = LOW ∨ sw = HIGH ∨ sw = OFF) :
    ∃ v, pole_voltage p sw i = some v := by
  cases hpv : pole_voltage p sw i with
  | none => exact absurd ((pole_voltage_eq_none_iff p sw i).mp hpv) (not_not.mpr h)
  | some v => exact ⟨v, rfl⟩

/-- Inversion for step: a successful step is mk_step_state at the three
resolved pole voltages. -/
theorem step_eq_some_iff (p : SimParams) (s s' : SimState) :
    step p s = some s' ↔
      ∃ v0 v1 v2,
        pole_voltage p (s.switches 0) (s.i_coils 0) = some v0 ∧
        pole_voltage p (s.switches 1) (s.i_coils 1) = some v1 ∧
        pole_voltage p (s.switches 2) (s.i_coils 2) = some v2 ∧
        s' = mk_step_state p s ![v0, v1, v2] := by
  constructor
  · intro h
    rw [step] at h
    cases h0 : pole_voltage p (s.switches 0) (s.i_coils 0) with
    | none => rw [h0] at h; cases h
    | some v0 =>
      cases h1 : pole_voltage p (s.switches 1) (s.i_coils 1) with
      | none => rw [h0, h1] at h; cases h
      | some v1 =>
        cases h2 : pole_voltage p (s.switches 2) (s.i_coils 2) with
        | none => rw [h0, h1, h2] at h; cases h
        | some v2 =>
          rw [h0, h1, h2] at h
          exact ⟨v0, v1, v2, rfl, rfl, rfl, (Option.some_injective _ h).symm⟩
  · rintro ⟨v0, v1, v2, h0, h1, h2, rfl⟩
    rw [step, h0, h1, h2]

theorem step_some_of_valid (p : SimParams) (s : SimState)
    (h : ∀ n : Fin 3, s.switches n = LOW ∨ s.switches n = HIGH ∨ s.switches n = OFF) :
    ∃ s', step p s = some s' := by
  obtain ⟨v0, h0⟩ := pole_voltage_isSome_of_valid p (s.switches 0) (s.i_coils 0) (h 0)
  obtain ⟨v1, h1⟩ := pole_voltage_isSome_of_valid p (s.switches 1) (s.i_coils 1) (h 1)
  obtain ⟨v2, h2⟩ := pole_voltage_isSome_of_valid p (s.switches 2) (s.i_coils 2) (h 2)
  exact ⟨mk_step_state p s ![v0, v1, v2],
    (step_eq_some_iff p s _).mpr ⟨v0, v1, v2, h0, h1, h2, rfl⟩⟩

/-- A successful step does not change the switches and advances time by dt. -/
theorem step_switches_time (p : SimParams) (s s' : SimState)
    (h : step p s = some s') :
    s'.switches = s.switches ∧ s'.time = s.time + p.dt := by
  obtain ⟨v0, v1, v2, _, _, _, rfl⟩ := (step_eq_some_iff p s s').mp h
  exact ⟨rfl, rfl⟩

/-! ### Spec-side formulas for the electrical update -/

/-- The spec's per-phase electrical-angle offsets 0, +2pi/3, -2pi/3. -/
def spec_phase_offsets : Fin 3 → ℝ := ![0, 2 * kPI / 3, -(2 * kPI / 3)]

/-- The spec's per-phase back-EMF: normed_bEmf(theta_e + phi_n) * omega,
evaluated on the pre-step state. -/
def spec_bEmf (p : SimParams) (s : SimState) (n : Fin 3) : ℝ :=
  get_back_emf p.normalized_bEmf_coeffs (s.angle_electrical + spec_phase_offsets n) *
    s.angular_vel_rotor

theorem step_normed_bEmfs_eq_spec (p : SimParams) (s : SimState) (n : Fin 3) :
    step_normed_bEmfs p s n =
      get_back_emf p.normalized_bEmf_coeffs (s.angle_electrical + spec_phase_offsets n) := by
  fin_cases n
  · simp [step_normed_bEmfs, spec_phase_offsets]
  · simp [step_normed_bEmfs, spec_phase_offsets]
  · simp [step_normed_bEmfs, spec_phase_offsets, sub_eq_add_neg]

theorem step_bEmfs_eq_spec (p : SimParams) (s : SimState) (n : Fin 3) :
    step_bEmfs p s n = spec_bEmf p s n := by
  rw [step_bEmfs, spec_bEmf, step_normed_bEmfs_eq_spec]

/-- Quiescent default state: all-LOW gates, zero currents, zero motion. -/
def zeroState : SimState :=
  { time := 0, switches := fun _ => LOW, i_coils := fun _ => 0
    v_poles := fun _ => 0, v_neutral := 0, v_phases := fun _ => 0
    bEmfs := fun _ => 0, torque := 0, angular_accel_rotor := 0
    angular_vel_rotor := 0, angle_rotor := 0, angle_electrical := 0
    load_torque := 0 }

/-- Simple concrete parameters with all physical constants equal to one and a
zero bEMF coefficient vector. -/
def unitParams : SimParams :=
  { dt := 1, bus_voltage := 1, i_diode_active := 0, v_diode_active := 0
    phase_resistance := 1, phase_inductance := 1, inertia_rotor := 1
    num_pole_pairs := 1, normalized_bEmf_coeffs := fun _ => 0
    step_multiplier := 1, cogging_torque_map := [] }

theorem zeroState_switches_valid :
    ∀ n : Fin 3, zeroState.switches n = LOW ∨ zeroState.switches n = HIGH ∨
      zeroState.switches n = OFF :=
  fun _ => Or.inl rfl

/-- Claim C2: one integrator step computes the electrical update exactly as
specified: bEmf[n] = normed_bEmf(theta_e + phi_n) * omega with offsets
0, +2pi/3, -2pi/3; v_neutral = (sum v_pole - sum bEmf) / 3;
v_phase[n] = v_pole[n] - v_neutral; and the explicit Euler update
i[n] <- i[n] + (v_phase[n] - bEmf[n] - R*i[n]) / L * dt, for every state on
which the step completes and every phase n. -/
theorem step_electrical_update (p : SimParams) (s s' : SimState)
    (h : step p s = some s') (n : Fin 3) :
    s'.bEmfs n = spec_bEmf p s n ∧
    s'.v_neutral = ((∑ m : Fin 3, s'.v_poles m) - ∑ m : Fin 3, spec_bEmf p s m) / 3 ∧
    s'.v_phases n = s'.v_poles n - s'.v_neutral ∧
    s'.i_coils n = s.i_coils n +
      (s'.v_phases n - spec_bEmf p s n - p.phase_resistance * s.i_coils n) /
        p.phase_inductance * p.dt := by
  obtain ⟨v0, v1, v2, h0, h1, h2, rfl⟩ := (step_eq_some_iff p s s').mp h
  refine ⟨step_bEmfs_eq_spec p s n, ?_, rfl, ?_⟩
  · show step_v_neutral p s _ = _
    rw [step_v_neutral]
    congr 2
    exact Finset.sum_congr rfl fun m _ => step_bEmfs_eq_spec p s m
  · simp only [mk_step_state]
    rw [step_i_coils, step_di_dt, step_bEmfs_eq_spec]
    ring

/-- Claim C2 witness: the electrical update equations at the quiescent state
with unit parameters, phase 0. -/
theorem step_electrical_update_witness :
    ∃ s', step unitParams zeroState = some s' ∧
      (s'.bEmfs 0 = spec_bEmf unitParams zeroState 0 ∧
       s'.v_neutral = ((∑ m : Fin 3, s'.v_poles m) -
          ∑ m : Fin 3, spec_bEmf unitParams zeroState m) / 3 ∧
       s'.v_phases 0 = s'.v_poles 0 - s'.v_neutral ∧
       s'.i_coils 0 = zeroState.i_coils 0 +
         (s'.v_phases 0 - spec_bEmf unitParams zeroState 0 -
            unitParams.phase_resistance * zeroState.i_coils 0) /
           unitParams.phase_inductance * unitParams.dt) := by
  obtain ⟨s', hs⟩ := step_some_of_valid unitParams zeroState zeroState_switches_valid
  exact ⟨s', hs, step_electrical_update unitParams zeroState s' hs 0⟩

/-- Claim C6: the integrator step is total on valid gate states and fatal
(diagnostic printf then exit(-1), modelled as none) exactly when some phase
has a switch value outside the LOW/HIGH/OFF set. -/
theorem step_none_iff_invalid_switch (p : SimParams) (s : SimState) :
    step p s = none ↔
      ∃ n : Fin 3, ¬(s.switches n = LOW ∨ s.switches n = HIGH ∨ s.switches n = OFF) := by
  constructor
  · intro h
    by_contra hall
    push_neg at hall
    obtain ⟨s', hs⟩ := step_some_of_valid p s hall
    rw [h] at hs
    cases hs
  · rintro ⟨n, hn⟩
    cases hstep : step p s with
    | none => rfl
    | some s' =>
      obtain ⟨v0, v1, v2, h0, h1, h2, _⟩ := (step_eq_some_iff p s s').mp hstep
      exfalso
      fin_cases n
      · exact hn (not_not.mp (fun hno =>
          Option.some_ne_none v0 (h0 ▸ (pole_voltage_eq_none_iff p _ _).mpr hno ▸ rfl)))
      · exact hn (not_not.mp (fun hno =>
          Option.some_ne_none v1 (h1 ▸ (pole_voltage_eq_none_iff p _ _).mpr hno ▸ rfl)))
      · exact hn (not_not.mp (fun hno =>
          Option.some_ne_none v2 (h2 ▸ (pole_voltage_eq_none_iff p _ _).mpr hno ▸ rfl)))

/-! ### Rotor angle wrap (C4) and diode freewheel polarity (C1) -/

theorem two_kPI_pos : 0 < 2 * kPI := by
  rw [kPI]; linarith [Real.pi_pos]

theorem pole_voltage_LOW (p : SimParams) (i : ℝ) : pole_voltage p LOW i = some 0 := by
  simp [pole_voltage, LOW, HIGH, OFF]

theorem step_torque_zero_coeffs (p : SimParams) (s : SimState) (vp : Fin 3 → ℝ)
    (h : p.normalized_bEmf_coeffs = fun _ => 0) : step_torque p s vp = 0 := by
  rw [step_torque, Fin.sum_univ_three]
  simp [step_normed_bEmfs, h, get_back_emf_zero_coeffs]

theorem step_angular_vel_zero_coeffs (p : SimParams) (s : SimState) (vp : Fin 3 → ℝ)
    (h : p.normalized_bEmf_coeffs = fun _ => 0) :
    step_angular_vel p s vp = s.angular_vel_rotor := by
  rw [step_angular_vel, step_angular_accel, step_torque_zero_coeffs p s vp h]
  simp

/-- Claim C4 (amended): after any successful step the rotor angle and the
electrical angle lie in the open interval (-2pi, 2pi) (not [0, 2pi): C++
fmod keeps the sign of its first argument), and the electrical angle equals
fmod(num_pole_pairs * rotor_angle, 2pi). -/
theorem step_angle_wrap (p : SimParams) (s s' : SimState) (h : step p s = some s') :
    (-(2 * kPI) < s'.angle_rotor ∧ s'.angle_rotor < 2 * kPI) ∧
    (-(2 * kPI) < s'.angle_electrical ∧ s'.angle_electrical < 2 * kPI) ∧
    s'.angle_electrical = fmod (s'.angle_rotor * (p.num_pole_pairs : ℝ)) (2 * kPI) := by
  obtain ⟨v0, v1, v2, h0, h1, h2, rfl⟩ := (step_eq_some_iff p s s').mp h
  simp only [mk_step_state]
  exact ⟨fmod_bounds _ _ two_kPI_pos, fmod_bounds _ _ two_kPI_pos, rfl⟩

/-- Claim C4 witness: the amended wrap bounds at the quiescent state. -/
theorem step_angle_wrap_witness :
    ∃ s', step unitParams zeroState = some s' ∧
      ((-(2 * kPI) < s'.angle_rotor ∧ s'.angle_rotor < 2 * kPI) ∧
       (-(2 * kPI) < s'.angle_electrical ∧ s'.angle_electrical < 2 * kPI) ∧
       s'.angle_electrical =
         fmod (s'.angle_rotor * (unitParams.num_pole_pairs : ℝ)) (2 * kPI)) := by
  obtain ⟨s', hs⟩ := step_some_of_valid unitParams zeroState zeroState_switches_valid
  exact ⟨s', hs, step_angle_wrap unitParams zeroState s' hs⟩

/-- Quiescent state with negative angular velocity -1 rad/s. -/
def negState : SimState := { zeroState with angular_vel_rotor := -1 }

/-- Claim C4 counterexample: starting from rest with angular velocity
-1 rad/s and dt = 1, one step leaves the rotor angle at -1, outside
[0, 2pi). -/
theorem step_angle_wrap_counterexample :
    ∃ s', step unitParams negState = some s' ∧
      ¬(0 ≤ s'.angle_rotor ∧ s'.angle_rotor < 2 * kPI) := by
  have hpv : ∀ n : Fin 3,
      pole_voltage unitParams (negState.switches n) (negState.i_coils n) = some 0 :=
    fun n => pole_voltage_LOW unitParams 0
  refine ⟨mk_step_state unitParams negState ![0, 0, 0],
    (step_eq_some_iff _ _ _).mpr ⟨0, 0, 0, hpv 0, hpv 1, hpv 2, rfl⟩, ?_⟩
  have hrot : (mk_step_state unitParams negState ![0, 0, 0]).angle_rotor = -1 := by
    show step_angle_rotor unitParams negState ![0, 0, 0] = -1
    rw [step_angle_rotor, step_angular_vel_zero_coeffs _ _ _ rfl]
    show fmod (0 + -1 * 1) (2 * kPI) = -1
    rw [show (0 : ℝ) + -1 * 1 = -1 by norm_num]
    exact fmod_neg_one_two_pi
  rw [hrot]
  rintro ⟨h1, _⟩
  linarith

/-- Parameters for the OFF-gate diode evaluation: 24 V bus, 1 V diode drop,
1e-6 A diode threshold. -/
def offNegParams : SimParams :=
  { unitParams with bus_voltage := 24, v_diode_active := 1,
                    i_diode_active := 1 / 1000000 }

/-- State with phase 0 gate OFF and phase-0 current -1 A. -/
def offNegState : SimState :=
  { zeroState with switches := ![OFF, LOW, LOW], i_coils := ![-1, 0, 0] }

/-- Claim C1 at the failing input: with the phase-0 gate OFF and phase-0
current -1 A (magnitude above the diode-active threshold), the code sets
v_pole[0] = bus_voltage - diode_active_voltage, not the claimed
bus_voltage + diode_active_voltage. -/
theorem step_off_negative_current_pole_voltage :
    (step offNegParams offNegState).map (fun t => t.v_poles 0) =
      some (offNegParams.bus_voltage - offNegParams.v_diode_active) ∧
    offNegParams.bus_voltage - offNegParams.v_diode_active ≠
      offNegParams.bus_voltage + offNegParams.v_diode_active := by
  constructor
  · have h0 : pole_voltage offNegParams (offNegState.switches 0) (offNegState.i_coils 0) =
        some (offNegParams.bus_voltage - offNegParams.v_diode_active) := by
      show pole_voltage offNegParams OFF (-1) = _
      rw [pole_voltage, if_pos rfl, if_neg (by norm_num), if_pos ?hthr]
      case hthr =>
        show offNegParams.i_diode_active < |(-1 : ℝ)|
        show (1 : ℝ) / 1000000 < |(-1 : ℝ)|
        rw [abs_neg, abs_one]
        norm_num
    have h1 : pole_voltage offNegParams (offNegState.switches 1) (offNegState.i_coils 1) =
        some 0 := pole_voltage_LOW offNegParams 0
    have h2 : pole_voltage offNegParams (offNegState.switches 2) (offNegState.i_coils 2) =
        some 0 := pole_voltage_LOW offNegParams 0
    have hs : step offNegParams offNegState = some (mk_step_state offNegParams offNegState
        ![offNegParams.bus_voltage - offNegParams.v_diode_active, 0, 0]) :=
      (step_eq_some_iff _ _ _).mpr ⟨_, 0, 0, h0, h1, h2, rfl⟩
    rw [hs]
    rfl
  · show (24 : ℝ) - 1 ≠ 24 + 1
    norm_num

/-! ### Torque (C3) -/

/-- Modelled from the spec: wrap an angle into [0, 2pi) (mathematical mod,
used by the spec's cogging lookup). -/
def wrap_angle (θ : ℝ) : ℝ := θ - 2 * kPI * (⌊θ / (2 * kPI)⌋ : ℝ)

/-- Modelled from the spec: cogging torque lookup (spec section 4.4 item 8,
the lookup implementation is not under src/): linear interpolation into the
cogging map indexed by the rotor angle mod 2pi scaled to the table length;
the table is cyclic.  An empty map contributes no torque. -/
def cogging_torque_lookup (m : List ℝ) (θ : ℝ) : ℝ :=
  if m.length = 0 then 0
  else
    let x := wrap_angle θ / (2 * kPI) * m.length
    let i := (⌊x⌋).toNat
    let t := x - i
    m.getD (i % m.length) 0 * (1 - t) + m.getD ((i + 1) % m.length) 0 * t

/-- Claim C3 (amended): after the current update, the stored torque equals
the electromagnetic torque sum over phases of i[n] * normed_bEmf_n(theta_e)
alone; the cogging-torque lookup and the load torque are not part of this
step's torque. -/
theorem step_torque_em_only (p : SimParams) (s s' : SimState)
    (h : step p s = some s') :
    s'.torque = ∑ n : Fin 3, s'.i_coils n *
      get_back_emf p.normalized_bEmf_coeffs (s.angle_electrical + spec_phase_offsets n) := by
  obtain ⟨v0, v1, v2, h0, h1, h2, rfl⟩ := (step_eq_some_iff p s s').mp h
  simp only [mk_step_state]
  rw [step_torque]
  exact Finset.sum_congr rfl fun n _ => by rw [step_normed_bEmfs_eq_spec]

/-- Claim C3 witness: the electromagnetic-only torque at the quiescent state
with unit parameters. -/
theorem step_torque_em_only_witness :
    ∃ s', step unitParams zeroState = some s' ∧
      s'.torque = ∑ n : Fin 3, s'.i_coils n *
        get_back_emf unitParams.normalized_bEmf_coeffs
          (zeroState.angle_electrical + spec_phase_offsets n) := by
  obtain ⟨s', hs⟩ := step_some_of_valid unitParams zeroState zeroState_switches_valid
  exact ⟨s', hs, step_torque_em_only unitParams zeroState s' hs⟩

/-- Quiescent state with a nonzero load torque of 1 N.m. -/
def loadState : SimState := { zeroState with load_torque := 1 }

/-- Claim C3 counterexample: with a load torque of 1 N.m (and a zero cogging
map), the stored torque after a step is 0, not the claimed
electromagnetic torque + cogging - load = -1. -/
theorem step_torque_counterexample :
    ∃ s', step unitParams loadState = some s' ∧
      s'.torque ≠ (∑ n : Fin 3, s'.i_coils n *
          get_back_emf unitParams.normalized_bEmf_coeffs
            (loadState.angle_electrical + spec_phase_offsets n)) +
        cogging_torque_lookup unitParams.cogging_torque_map loadState.angle_rotor -
        loadState.load_torque := by
  have hpv : ∀ n : Fin 3,
      pole_voltage unitParams (loadState.switches n) (loadState.i_coils n) = some 0 :=
    fun n => pole_voltage_LOW unitParams 0
  refine ⟨mk_step_state unitParams loadState ![0, 0, 0],
    (step_eq_some_iff _ _ _).mpr ⟨0, 0, 0, hpv 0, hpv 1, hpv 2, rfl⟩, ?_⟩
  have htor : (mk_step_state unitParams loadState ![0, 0, 0]).torque = 0 :=
    step_torque_zero_coeffs unitParams loadState ![0, 0, 0] rfl
  have hemf : ∀ n : Fin 3,
      get_back_emf unitParams.normalized_bEmf_coeffs
        (loadState.angle_electrical + spec_phase_offsets n) = 0 :=
    fun n => get_back_emf_zero_coeffs _
  have hcog : cogging_torque_lookup unitParams.cogging_torque_map loadState.angle_rotor = 0 := by
    rw [cogging_torque_lookup, if_pos]
    rfl
  rw [htor, hcog]
  simp only [hemf, mul_zero, Finset.sum_const_zero]
  show (0 : ℝ) ≠ 0 + 0 - 1
  norm_num

/-! ### Host loop and time advance (C7) -/

/-- Apply the integrator step k times, counting each invocation of step
(one final invocation is counted even when it hits the fatal path). -/
def iterSteps (p : SimParams) : ℕ → SimState → Option SimState × ℕ
  | 0, s => (some s, 0)
  | k + 1, s =>
    match step p s with
    | none => (none, 1)
    | some s1 =>
      let r := iterSteps p k s1
      (r.1, r.2 + 1)

/-- The per-frame body of main (simulator.cpp lines 128-155): each host
frame runs step_multiplier steps when stepping is enabled, none otherwise.
A frame is abstracted to its should_step flag; the list ends when the quit
flag is seen. -/
def hostFrames (p : SimParams) : List Bool → SimState → Option SimState × ℕ
  | [], s => (some s, 0)
  | f :: rest, s =>
    if f then
      match iterSteps p p.step_multiplier s with
      | (some s1, c) =>
        let r := hostFrames p rest s1
        (r.1, r.2 + c)
      | (none, c) => (none, c)
    else hostFrames p rest s

/-- The whole of main after initialization (simulator.cpp lines 128-158):
the frame loop followed by the single additional step call before return. -/
def programRun (p : SimParams) (frames : List Bool) (s : SimState) :
    Option SimState × ℕ :=
  match hostFrames p frames s with
  | (some s1, c) =>
    match step p s1 with
    | some s2 => (some s2, c + 1)
    | none => (none, c + 1)
  | (none, c) => (none, c)

theorem iterSteps_of_valid (p : SimParams) (k : ℕ) (s : SimState)
    (h : ∀ n : Fin 3, s.switches n = LOW ∨ s.switches n = HIGH ∨ s.switches n = OFF) :
    ∃ s', iterSteps p k s = (some s', k) ∧
      s'.time = s.time + (k : ℝ) * p.dt ∧ s'.switches = s.switches := by
  induction k generalizing s with
  | zero => exact ⟨s, rfl, by simp, rfl⟩
  | succ k ih =>
    obtain ⟨s1, hs1⟩ := step_some_of_valid p s h
    obtain ⟨hsw1, ht1⟩ := step_switches_time p s s1 hs1
    obtain ⟨s', hiter, htime, hsw⟩ := ih s1 (by rw [hsw1]; exact h)
    refine ⟨s', ?_, ?_, by rw [hsw, hsw1]⟩
    · simp [iterSteps, hs1, hiter]
    · rw [htime, ht1]
      push_cast
      ring

theorem hostFrames_of_valid (p : SimParams) (frames : List Bool) (s : SimState)
    (h : ∀ n : Fin 3, s.switches n = LOW ∨ s.switches n = HIGH ∨ s.switches n = OFF) :
    ∃ s', hostFrames p frames s = (some s', p.step_multiplier * frames.count true) ∧
      s'.time = s.time + ((p.step_multiplier * frames.count true : ℕ) : ℝ) * p.dt ∧
      s'.switches = s.switches := by
  induction frames generalizing s with
  | nil => exact ⟨s, by simp [hostFrames], by simp, rfl⟩
  | cons f rest ih =>
    cases f with
    | false =>
      obtain ⟨s', hrun, htime, hsw⟩ := ih s h
      refine ⟨s', ?_, ?_, hsw⟩
      · simp [hostFrames, hrun]
      · simpa using htime
    | true =>
      obtain ⟨s1, hiter, ht1, hsw1⟩ := iterSteps_of_valid p p.step_multiplier s h
      obtain ⟨s', hrun, htime, hsw⟩ := ih s1 (by rw [hsw1]; exact h)
      have hcount : (true :: rest).count true = rest.count true + 1 := by
        rw [List.count_cons]
        simp
      have hbody : hostFrames p (true :: rest) s =
          ((hostFrames p rest s1).1, (hostFrames p rest s1).2 + p.step_multiplier) := by
        simp [hostFrames, hiter]
      refine ⟨s', ?_, ?_, by rw [hsw, hsw1]⟩
      · rw [hbody, hrun, hcount]
        refine Prod.ext rfl ?_
        show p.step_multiplier * rest.count true + p.step_multiplier =
          p.step_multiplier * (rest.count true + 1)
        ring
      · rw [htime, ht1, hcount]
        push_cast
        ring

/-- Claim C7 (amended): every step advances time by exactly dt, and a
program run with the given per-frame stepping flags invokes step exactly
step_multiplier times per stepping-enabled frame plus one additional
invocation after the frame loop exits, so the final time is
t0 + (step_multiplier * (number of stepping frames) + 1) * dt. -/
theorem program_step_count (p : SimParams) (frames : List Bool) (s : SimState)
    (h : ∀ n : Fin 3, s.switches n = LOW ∨ s.switches n = HIGH ∨ s.switches n = OFF) :
    ∃ s', programRun p frames s = (some s', p.step_multiplier * frames.count true + 1) ∧
      s'.time = s.time + ((p.step_multiplier * frames.count true + 1 : ℕ) : ℝ) * p.dt := by
  obtain ⟨s1, hrun, ht1, hsw1⟩ := hostFrames_of_valid p frames s h
  obtain ⟨s2, hs2⟩ := step_some_of_valid p s1 (by rw [hsw1]; exact h)
  obtain ⟨_, ht2⟩ := step_switches_time p s1 s2 hs2
  refine ⟨s2, ?_, ?_⟩
  · rw [programRun, hrun]
    show (match step p s1 with
      | some s2 => (some s2, p.step_multiplier * List.count true frames + 1)
      | none => (none, p.step_multiplier * List.count true frames + 1)) =
      (some s2, p.step_multiplier * List.count true frames + 1)
    rw [hs2]
  · rw [ht2, ht1]
    push_cast
    ring

/-- Claim C7 witness: one stepping frame with step multiplier 1 gives two
step invocations (one in the frame, one after the loop) and time 2*dt. -/
theorem program_step_count_witness :
    ∃ s', programRun unitParams [true] zeroState =
        (some s', unitParams.step_multiplier * ([true] : List Bool).count true + 1) ∧
      s'.time = zeroState.time +
        ((unitParams.step_multiplier * ([true] : List Bool).count true + 1 : ℕ) : ℝ) *
          unitParams.dt :=
  program_step_count unitParams [true] zeroState zeroState_switches_valid

/-- Claim C7 counterexample: with zero host frames the claim as stated
predicts zero step invocations, but the program performs one (the call after
the main loop, simulator.cpp line 157). -/
theorem program_extra_step_counterexample :
    (programRun unitParams [] zeroState).2 = 1 ∧
    (1 : ℕ) ≠ unitParams.step_multiplier * (([] : List Bool).count true) := by
  constructor
  · obtain ⟨s1, hs1⟩ := step_some_of_valid unitParams zeroState zeroState_switches_valid
    rw [programRun]
    show (match hostFrames unitParams [] zeroState with
      | (some s1, c) => match step unitParams zeroState with
        | some s2 => (some s2, c + 1)
        | none => (none, c + 1)
      | (none, c) => (none, c)).2 = 1
    rw [show hostFrames unitParams [] zeroState = (some zeroState, 0) from rfl, hs1]
  · simp

/-! ### Rolling buffers and CSV export (C5, C10) -/

/-- Modelled from the spec: the rolling-buffer bookkeeping
(util/rolling_buffer.h is not under src/).  Spec section 4.7: advance
post-increments the write index and wraps at capacity; count is
min(writes, capacity); begin is the oldest valid index.  The context is
represented by the capacity and the total number of writes. -/
structure RollingCtx where
  capacity : ℕ
  writes : ℕ

/-- Modelled from the spec: count = min(writes, capacity). -/
def get_rolling_buffer_count (c : RollingCtx) : ℕ := min c.writes c.capacity

/-- Modelled from the spec: the next write index, wrapping at capacity. -/
def rolling_buffer_next_idx (c : RollingCtx) : ℕ := c.writes % c.capacity

/-- Modelled from the spec: the oldest valid index — 0 until the buffer has
wrapped, thereafter the next write index. -/
def get_rolling_buffer_begin (c : RollingCtx) : ℕ :=
  if c.writes ≤ c.capacity then 0 else c.writes % c.capacity

/-- Modelled from the spec: post-increment the write index. -/
def rolling_buffer_advance_idx (c : RollingCtx) : RollingCtx :=
  { c with writes := c.writes + 1 }

/-- The rolling-buffer channels read by to_csv and the power plot
(gui.cpp): per-channel storage arrays indexed by raw buffer index. -/
structure RollingBuffers where
  ctx : RollingCtx
  timestamps : ℕ → ℝ
  torque : ℕ → ℝ
  bEmfs : Fin 3 → ℕ → ℝ
  phase_currents : Fin 3 → ℕ → ℝ
  power_draw : ℕ → ℝ

/-- The column names of to_csv (gui.cpp lines 1031-1039), in order. -/
def csv_field_names : List String :=
  ["timestamp", "torque", "bEmf_a", "bEmf_b", "bEmf_c",
   "current_a", "current_b", "current_c"]

/-- The column sources of to_csv (gui.cpp lines 1031-1039), in order. -/
def csv_fields (b : RollingBuffers) : List (ℕ → ℝ) :=
  [b.timestamps, b.torque, b.bEmfs 0, b.bEmfs 1, b.bEmfs 2,
   b.phase_currents 0, b.phase_currents 1, b.phase_currents 2]

/-- One CSV row: every column read at the same raw buffer index. -/
def csv_row (b : RollingBuffers) (row : ℕ) : List ℝ :=
  (csv_fields b).map fun f => f row

/-- The rows emitted by to_csv (gui.cpp lines 1052-1064): raw buffer
indices 0 .. count-1 in storage order. -/
def to_csv_cells (b : RollingBuffers) : List (List ℝ) :=
  (List.range (get_rolling_buffer_count b.ctx)).map (csv_row b)

/-- to_csv (gui.cpp lines 1025-1067): comma-separated header terminated by
a newline, then one comma-separated row per valid entry, each terminated by
a newline.  The free-form floating-point rendering of operator<< is
abstracted by fmt. -/
def to_csv (fmt : ℝ → String) (b : RollingBuffers) : String :=
  String.intercalate "," csv_field_names ++ "\n" ++
    String.join ((to_csv_cells b).map fun r => String.intercalate "," (r.map fmt) ++ "\n")

/-- The spec's chronological row order: count rows starting at the oldest
valid index and wrapping at capacity. -/
def chron_cells (b : RollingBuffers) : List (List ℝ) :=
  (List.range (get_rolling_buffer_count b.ctx)).map
    fun k => csv_row b ((get_rolling_buffer_begin b.ctx + k) % b.ctx.capacity)

/-- Claim C5 (amended): to_csv emits the exact header line followed by one
newline-terminated row per valid entry in raw storage order 0..count-1;
when the ring buffer has not wrapped (writes ≤ capacity) this order is
chronological, oldest first. -/
theorem to_csv_unwrapped_chronological (fmt : ℝ → String) (b : RollingBuffers)
    (h : b.ctx.writes ≤ b.ctx.capacity) :
    String.intercalate "," csv_field_names =
      "timestamp,torque,bEmf_a,bEmf_b,bEmf_c,current_a,current_b,current_c" ∧
    to_csv fmt b = String.intercalate "," csv_field_names ++ "\n" ++
      String.join ((chron_cells b).map fun r =>
        String.intercalate "," (r.map fmt) ++ "\n") := by
  refine ⟨rfl, ?_⟩
  have hcells : to_csv_cells b = chron_cells b := by
    rw [to_csv_cells, chron_cells]
    refine List.map_congr_left fun k hk => ?_
    rw [List.mem_range] at hk
    rcases Nat.eq_zero_or_pos b.ctx.capacity with hc | hc
    · exfalso
      rw [get_rolling_buffer_count, hc] at hk
      omega
    · rw [get_rolling_buffer_begin, if_pos h]
      rw [get_rolling_buffer_count] at hk
      rw [Nat.zero_add, Nat.mod_eq_of_lt (by omega)]
  rw [to_csv, hcells]

/-- A wrapped two-slot buffer: three samples written, storage slot 0 holds
the newest timestamp 2 and slot 1 the older timestamp 1. -/
def wrappedBuffers : RollingBuffers :=
  { ctx := { capacity := 2, writes := 3 }
    timestamps := fun n => if n = 0 then 2 else 1
    torque := fun _ => 0
    bEmfs := fun _ _ => 0
    phase_currents := fun _ _ => 0
    power_draw := fun _ => 0 }

/-- Claim C5 counterexample: after the ring buffer wraps, the rows emitted
by to_csv (raw storage order) are not in chronological order — the first
emitted row has timestamp 2 while the oldest entry has timestamp 1. -/
theorem to_csv_wrapped_counterexample :
    to_csv_cells wrappedBuffers ≠ chron_cells wrappedBuffers := by
  intro h
  have h2 : ((to_csv_cells wrappedBuffers).headD []).headD 0 =
      ((chron_cells wrappedBuffers).headD []).headD 0 := by rw [h]
  have e1 : ((to_csv_cells wrappedBuffers).headD []).headD 0 = 2 := rfl
  have e2 : ((chron_cells wrappedBuffers).headD []).headD 0 = 1 := rfl
  rw [e1, e2] at h2
  norm_num at h2

/-- An unwrapped two-slot buffer holding a single sample. -/
def smallBuffers : RollingBuffers :=
  { ctx := { capacity := 2, writes := 1 }
    timestamps := fun _ => 0
    torque := fun _ => 0
    bEmfs := fun _ _ => 0
    phase_currents := fun _ _ => 0
    power_draw := fun _ => 0 }

/-- Claim C5 witness: the amended CSV statement at a concrete unwrapped
buffer and a concrete formatter. -/
theorem to_csv_unwrapped_chronological_witness :
    smallBuffers.ctx.writes ≤ smallBuffers.ctx.capacity ∧
    (String.intercalate "," csv_field_names =
      "timestamp,torque,bEmf_a,bEmf_b,bEmf_c,current_a,current_b,current_c" ∧
     to_csv (fun _ => "x") smallBuffers =
       String.intercalate "," csv_field_names ++ "\n" ++
         String.join ((chron_cells smallBuffers).map fun r =>
           String.intercalate "," (r.map fun _ => "x") ++ "\n")) :=
  ⟨by decide, to_csv_unwrapped_chronological (fun _ => "x") smallBuffers (by decide)⟩

/-- Gate state as read by the observers (gui.cpp): the actual switch state
of each phase, one of LOW, HIGH, OFF. -/
structure GateState where
  actual : Fin 3 → ℕ

/-- Board state as read by the observers (gui.cpp). -/
structure BoardState where
  bus_voltage : ℝ
  gate : GateState

/-- Electrical motor state as read by the observers (gui.cpp). -/
structure MotorElectrical where
  phase_currents : Fin 3 → ℝ
  bEmfs : Fin 3 → ℝ

/-- Kinematic motor state as read by the observers (gui.cpp). -/
structure MotorKinematic where
  torque : ℝ

/-- Motor state as read by the observers (gui.cpp). -/
structure MotorState where
  electrical : MotorElectrical
  kinematic : MotorKinematic

/-- The power calculation of update_rolling_buffers (gui.cpp lines 276-287):
bus_voltage * current summed over exactly the phases whose actual gate state
is HIGH. -/
def power_draw_calc (bus : ℝ) (actual : Fin 3 → ℕ) (currents : Fin 3 → ℝ) : ℝ :=
  ([0, 1, 2] : List (Fin 3)).foldl
    (fun acc i => if actual i = HIGH then acc + bus * currents i else acc) 0

/-- update_rolling_buffers (gui.cpp lines 220-295) restricted to the
modelled channels: write each channel at the next raw index, then advance
the ring buffer. -/
def update_rolling_buffers (time : ℝ) (board : BoardState) (motor : MotorState)
    (b : RollingBuffers) : RollingBuffers :=
  { ctx := rolling_buffer_advance_idx b.ctx
    timestamps := Function.update b.timestamps (rolling_buffer_next_idx b.ctx) time
    torque := Function.update b.torque (rolling_buffer_next_idx b.ctx)
      motor.kinematic.torque
    bEmfs := fun k => Function.update (b.bEmfs k) (rolling_buffer_next_idx b.ctx)
      (motor.electrical.bEmfs k)
    phase_currents := fun k =>
      Function.update (b.phase_currents k) (rolling_buffer_next_idx b.ctx)
        (motor.electrical.phase_currents k)
    power_draw := Function.update b.power_draw (rolling_buffer_next_idx b.ctx)
      (power_draw_calc board.bus_voltage board.gate.actual
        motor.electrical.phase_currents) }

/-- Claim C10: at every observer sample, the recorded power_draw equals
bus_voltage times the sum of the phase currents of exactly those phases
whose actual gate state is HIGH; LOW, OFF (and any other) gate states
contribute nothing. -/
theorem power_draw_recorded (time : ℝ) (board : BoardState) (motor : MotorState)
    (b : RollingBuffers) :
    (update_rolling_buffers time board motor b).power_draw
        (rolling_buffer_next_idx b.ctx) =
      board.bus_voltage *
        ∑ i in Finset.univ.filter (fun i : Fin 3 => board.gate.actual i = HIGH),
          motor.electrical.phase_currents i := by
  show Function.update b.power_draw (rolling_buffer_next_idx b.ctx)
      (power_draw_calc board.bus_voltage board.gate.actual
        motor.electrical.phase_currents) (rolling_buffer_next_idx b.ctx) = _
  rw [Function.update_same, Finset.sum_filter, Fin.sum_univ_three]
  simp only [power_draw_calc, List.foldl]
  split_ifs <;> ring

/-! ### Clarke transform round trip (C9) -/

/-- Modelled from the spec: the amplitude-invariant Clarke transform
(clarke_transform.cpp, which defines kClarkeTransform2x3, is not under
src/).  Spec section 4.1: alpha = (2a - b - c)/3, beta = (b - c)/sqrt 3. -/
def clarke_transform (a b c : ℝ) : ℝ × ℝ :=
  ((2 * a - b - c) / 3, (b - c) / Real.sqrt 3)

/-- Modelled from the spec: the inverse Clarke transform (not under src/),
the standard inverse of the amplitude-invariant transform on the zero-sum
subspace: a = alpha, b = (-alpha + sqrt 3 * beta)/2,
c = (-alpha - sqrt 3 * beta)/2. -/
def inverse_clarke (v : ℝ × ℝ) : ℝ × ℝ × ℝ :=
  (v.1, (-v.1 + Real.sqrt 3 * v.2) / 2, (-v.1 - Real.sqrt 3 * v.2) / 2)

/-- Claim C9: for every balanced triple with a + b + c = 0, the inverse
Clarke transform of the Clarke transform returns exactly (a, b, c). -/
theorem clarke_round_trip (a b c : ℝ) (h : a + b + c = 0) :
    inverse_clarke (clarke_transform a b c) = (a, b, c) := by
  have hs3 : Real.sqrt 3 ≠ 0 := by
    have h3 : (0 : ℝ) < Real.sqrt 3 := Real.sqrt_pos.mpr (by norm_num)
    linarith
  have key : ∀ x : ℝ, Real.sqrt 3 * (x / Real.sqrt 3) = x := fun x => by
    rw [mul_comm, div_mul_cancel₀ x hs3]
  have hc : c = -a - b := by linarith
  subst hc
  simp only [clarke_transform, inverse_clarke, Prod.mk.injEq]
  refine ⟨by ring, ?_, ?_⟩
  · rw [key]
    ring
  · rw [key]
    ring

/-- Claim C9 witness: the Clarke round trip at the balanced triple
(1, -1, 0). -/
theorem clarke_round_trip_witness :
    (1 : ℝ) + (-1) + 0 = 0 ∧
    inverse_clarke (clarke_transform 1 (-1) 0) = (1, -1, 0) :=
  ⟨by norm_num, clarke_round_trip 1 (-1) 0 (by norm_num)⟩

/-! ### Random cogging-map generation (C8, gui.cpp lines 675-755) -/

/-- The six dominant cogging frequencies chosen by the generator
(gui.cpp lines 686-687), in terms of the pole-pair count. -/
def cogging_frequencies (p : ℕ) (n : ℕ) : ℕ :=
  [1, p, p * 2 + 1, p * 3 + 2, p * 7 + 3, p * 10 + 4].getD n 0

/-- The per-frequency scale factors (gui.cpp lines 689-690). -/
def cogging_freq_scale (n : ℕ) : ℝ :=
  [0.5, 1.5, 1.0, 1.5, 0.5, 0.25].getD n 0

/-- The twelve Fourier coefficients: each normal draw scaled by the factor
of its frequency (gui.cpp lines 692-695).  The random draws are inputs. -/
def cogging_fourier_coeffs (draws : ℕ → ℝ) (i : ℕ) : ℝ :=
  draws i * cogging_freq_scale (i / 2)

/-- The raw cogging-map entry before rescaling (gui.cpp lines 697-711):
cos coefficients at even indices, sin coefficients at odd indices,
progress = i / N. -/
def cogging_raw (p : ℕ) (draws : ℕ → ℝ) (N : ℕ) (i : ℕ) : ℝ :=
  ∑ n in Finset.range 6,
    (cogging_fourier_coeffs draws (2 * n) *
       Real.cos ((i : ℝ) / N * 2 * kPI * (cogging_frequencies p n : ℝ)) +
     cogging_fourier_coeffs draws (2 * n + 1) *
       Real.sin ((i : ℝ) / N * 2 * kPI * (cogging_frequencies p n : ℝ)))

/-- The maximum absolute raw entry (gui.cpp lines 736-740), computed as the
source does by folding max over the map starting from 0. -/
def cogging_max_abs (p : ℕ) (draws : ℕ → ℝ) (N : ℕ) : ℝ :=
  (List.range N).foldl (fun m i => max m |cogging_raw p draws N i|) 0

/-- The final map entry after rescaling by 0.01 / max_abs
(gui.cpp lines 742-744). -/
def cogging_map_entry (p : ℕ) (draws : ℕ → ℝ) (N : ℕ) (i : ℕ) : ℝ :=
  cogging_raw p draws N i * (0.01 / cogging_max_abs p draws N)

/-- The energy-conservation integral of the sanity check
(gui.cpp lines 746-751): sum of the map times 2*pi/N. -/
def cogging_energy (p : ℕ) (draws : ℕ → ℝ) (N : ℕ) : ℝ :=
  (∑ i in Finset.range N, cogging_map_entry p draws N i) * (2 * kPI / N)

/-- The warning condition of the sanity check (gui.cpp line 752): a
diagnostic is printed exactly when the energy magnitude exceeds 1e-8; the
map is only read, never modified, and the program continues. -/
def cogging_warns (p : ℕ) (draws : ℕ → ℝ) (N : ℕ) : Prop :=
  |cogging_energy p draws N| > 1e-8

theorem le_foldl_max (l : List ℝ) (a : ℝ) : a ≤ l.foldl max a := by
  induction l generalizing a with
  | nil => exact le_refl a
  | cons x xs ih => exact le_trans (le_max_left a x) (ih (max a x))

theorem mem_le_foldl_max (l : List ℝ) (x : ℝ) (hx : x ∈ l) (a : ℝ) :
    x ≤ l.foldl max a := by
  induction l generalizing a with
  | nil => cases hx
  | cons y ys ih =>
    rcases List.mem_cons.mp hx with rfl | hmem
    · exact le_trans (le_max_right a x) (le_foldl_max ys (max a x))
    · exact ih hmem (max a y)

theorem foldl_max_eq_or_mem (l : List ℝ) (a : ℝ) :
    l.foldl max a = a ∨ l.foldl max a ∈ l := by
  induction l generalizing a with
  | nil => exact Or.inl rfl
  | cons x xs ih =>
    rcases ih (max a x) with h | h
    · rcases max_choice a x with hm | hm
      · exact Or.inl (by rw [List.foldl_cons, h, hm])
      · exact Or.inr (by rw [List.foldl_cons, h, hm]; exact List.mem_cons_self x xs)
    · exact Or.inr (List.mem_cons_of_mem x h)

theorem cogging_max_abs_eq_foldl (p : ℕ) (draws : ℕ → ℝ) (N : ℕ) :
    cogging_max_abs p draws N =
      ((List.range N).map fun i => |cogging_raw p draws N i|).foldl max 0 := by
  rw [List.foldl_map]
  rfl

theorem abs_cogging_raw_le_max (p : ℕ) (draws : ℕ → ℝ) (N : ℕ) (i : ℕ)
    (hi : i < N) : |cogging_raw p draws N i| ≤ cogging_max_abs p draws N := by
  rw [cogging_max_abs_eq_foldl]
  exact mem_le_foldl_max _ _
    (List.mem_map_of_mem (fun j => |cogging_raw p draws N j|)
      (List.mem_range.mpr hi)) 0

theorem cogging_max_abs_pos (p : ℕ) (draws : ℕ → ℝ) (N : ℕ)
    (h : ∃ i < N, cogging_raw p draws N i ≠ 0) :
    0 < cogging_max_abs p draws N := by
  obtain ⟨i, hi, hne⟩ := h
  have h1 : 0 < |cogging_raw p draws N i| := abs_pos.mpr hne
  have h2 := abs_cogging_raw_le_max p draws N i hi
  linarith

theorem cogging_max_abs_attained (p : ℕ) (draws : ℕ → ℝ) (N : ℕ)
    (h : 0 < cogging_max_abs p draws N) :
    ∃ i < N, |cogging_raw p draws N i| = cogging_max_abs p draws N := by
  rcases foldl_max_eq_or_mem ((List.range N).map fun i => |cogging_raw p draws N i|) 0
    with h0 | hmem
  · rw [cogging_max_abs_eq_foldl] at h
    rw [h0] at h
    exact absurd h (lt_irrefl 0)
  · obtain ⟨i, hir, heq⟩ := List.mem_map.mp hmem
    exact ⟨i, List.mem_range.mp hir, by rw [heq, cogging_max_abs_eq_foldl]⟩

/-- Claim C8: after random cogging-map generation (the twelve normal draws
are inputs; at least one raw entry nonzero, which holds almost surely),
every rescaled entry has magnitude at most 0.01, the maximum magnitude
equals 0.01, and the energy check warns exactly when the magnitude of
sum * 2*pi/N exceeds 1e-8; the check reads the map without modifying it and
no recentering is applied (that block is commented out in the source). -/
theorem cogging_map_generation (p N : ℕ) (draws : ℕ → ℝ)
    (h : ∃ i < N, cogging_raw p draws N i ≠ 0) :
    (∀ i < N, |cogging_map_entry p draws N i| ≤ 0.01) ∧
    (∃ i < N, |cogging_map_entry p draws N i| = 0.01) ∧
    (cogging_warns p draws N ↔
      |(∑ i in Finset.range N, cogging_map_entry p draws N i) * (2 * kPI / N)| > 1e-8) := by
  have hM : 0 < cogging_max_abs p draws N := cogging_max_abs_pos p draws N h
  have hMne : cogging_max_abs p draws N ≠ 0 := ne_of_gt hM
  have hscale : |(0.01 : ℝ) / cogging_max_abs p draws N| =
      0.01 / cogging_max_abs p draws N :=
    abs_of_nonneg (by positivity)
  refine ⟨?_, ?_, Iff.rfl⟩
  · intro i hi
    rw [cogging_map_entry, abs_mul, hscale]
    calc |cogging_raw p draws N i| * (0.01 / cogging_max_abs p draws N)
        ≤ cogging_max_abs p draws N * (0.01 / cogging_max_abs p draws N) :=
          mul_le_mul_of_nonneg_right (abs_cogging_raw_le_max p draws N i hi)
            (by positivity)
      _ = 0.01 := by rw [mul_comm, div_mul_cancel₀ _ hMne]
  · obtain ⟨i, hi, heq⟩ := cogging_max_abs_attained p draws N hM
    refine ⟨i, hi, ?_⟩
    rw [cogging_map_entry, abs_mul, hscale, heq, mul_comm,
        div_mul_cancel₀ _ hMne]

/-- Concrete random draws: the first normal draw is 1, all others 0. -/
def coggingWitnessDraws : ℕ → ℝ := fun i => if i = 0 then 1 else 0

/-- Claim C8 witness: the rescaling bounds and the energy-check condition
for a single-entry map generated from the concrete draws. -/
theorem cogging_map_generation_witness :
    (∃ i < 1, cogging_raw 1 coggingWitnessDraws 1 i ≠ 0) ∧
    ((∀ i < 1, |cogging_map_entry 1 coggingWitnessDraws 1 i| ≤ 0.01) ∧
     (∃ i < 1, |cogging_map_entry 1 coggingWitnessDraws 1 i| = 0.01) ∧
     (cogging_warns 1 coggingWitnessDraws 1 ↔
       |(∑ i in Finset.range 1, cogging_map_entry 1 coggingWitnessDraws 1 i) *
          (2 * kPI / (1 : ℕ))| > 1e-8)) := by
  have hraw : ∃ i < 1, cogging_raw 1 coggingWitnessDraws 1 i ≠ 0 := by
    refine ⟨0, Nat.zero_lt_one, ?_⟩
    have hv : cogging_raw 1 coggingWitnessDraws 1 0 = 1 / 2 := by
      rw [cogging_raw]
      simp only [Finset.sum_range_succ, Finset.sum_range_zero]
      norm_num [cogging_fourier_coeffs, cogging_freq_scale, coggingWitnessDraws,
                cogging_frequencies]
    rw [hv]
    norm_num
  exact ⟨hraw, cogging_map_generation 1 1 coggingWitnessDraws hraw⟩

end

end MotorSim
